import Mathlib

/-!
Shallow embedding of the version-triple dependency-graph data model and its
operations, translated from `src/data-processing/shared.py` (the copy in
`src/models/shared.py` is the same code minus the `classes` field and the
`limited_to` parameter), and of the package-level topological feature engine
from `src/replication/compute_network_metrics.py`.

Conventions used throughout:
* Python `bool` becomes `Bool`, node indices become `Nat`.
* A Python value that may be `None` becomes an `Option`.
* A Python function that may raise (pydantic `ValidationError`, `IndexError`)
  returns an `Option`, `none` marking the raised exception.
* Fully-qualified Java type/package names are modelled as their lists of
  dot-separated segments (`List String`); joining a list of dot-free segments
  with `"."` is injective, so equality of names coincides with equality of
  segment lists, and stripping the last dot-separated segment is `List.dropLast`.
* Floating-point arithmetic in the Katz computation is modelled exactly over `ℚ`.
-/

namespace Study2

/-- `DependencyType` enumeration from `shared.py`. -/
inductive DependencyType where
  | uses
  | extends_
  | implements
  | unspecified
deriving DecidableEq, Repr

/-- `DependencySpec`: a mapping from dependency type to occurrence count,
modelled as an association list. -/
structure DependencySpec where
  counts : List (DependencyType × Nat)
deriving DecidableEq, Repr

/-- `Edge`: a directed dependency between two node indices. -/
structure Edge where
  from_ : Nat
  to_ : Nat
  edge_type : DependencySpec
deriving DecidableEq, Repr

/-- `Edge.as_undirected_problem` from `shared.py`: returns a new edge with
`from` and `to` swapped and the `edge_type` kept. -/
def Edge.as_undirected_problem (e : Edge) : Edge :=
  { from_ := e.to_, to_ := e.from_, edge_type := e.edge_type }

/-- `Node` from `shared.py` (data-processing variant). -/
structure Node where
  name : String
  versions : List Nat
  files : List (String × String)
deriving DecidableEq, Repr

/-- `Class` from `shared.py`. -/
structure Class where
  package : String
  name : String
  versions : List Nat
deriving DecidableEq, Repr

/-- `NodeHierarchy` from `shared.py`: a containment tree. -/
inductive NodeHierarchy where
  | mk (name : String) (index : Option Nat) (children : List NodeHierarchy)
       (versions : List Nat)

/-- `EdgeLabels` from `shared.py`: the candidate pairs of the prediction
problem and their ground-truth boolean labels. -/
structure EdgeLabels where
  edges : List (Nat × Nat)
  labels : List Bool

/-- The dictionary comprehension
`lookup = {(fr, to): flag for (fr, to), flag in zip(self.edges, self.labels)}`:
on duplicate keys the last entry wins, hence the lookup searches the reversed
entry list. `none` models a missing key (Python `dict.get` returning `None`). -/
def dictLookup (entries : List ((Nat × Nat) × Bool)) (k : Nat × Nat) : Option Bool :=
  (entries.reverse.find? (fun e => decide (e.1 = k))).map (fun e => e.2)

/-- The main loop of `EdgeLabels.as_undirected_problem`: walk the zipped
`(edge, label)` entries keeping a `seen` set of already-emitted keys; for an
unseen unordered pair emit the pair together with its merged label.  The merged
label mirrors `if not flag: flag = flag or lookup.get((to, fr))`: a true flag
is kept as `some true`, a false flag becomes the reverse lookup's result, which
is `none` when no reverse entry exists (Python's `None`). -/
def mergeLabels (lookup : Nat × Nat → Option Bool) :
    List ((Nat × Nat) × Bool) → List (Nat × Nat) → List ((Nat × Nat) × Option Bool)
  | [], _ => []
  | (p, flag) :: rest, seen =>
    if p ∈ seen ∨ (p.2, p.1) ∈ seen then
      mergeLabels lookup rest seen
    else
      (p, if flag then some true else lookup (p.2, p.1)) :: mergeLabels lookup rest (p :: seen)

/-- Collect a list of optional booleans, failing on the first `none`.  This
models pydantic's validation of the `labels: list[bool]` field: a `None` in
the list raises a `ValidationError`. -/
def allSome : List (Option Bool) → Option (List Bool)
  | [] => some []
  | none :: _ => none
  | some b :: rest => (allSome rest).map (fun l => b :: l)

/-- `EdgeLabels.as_undirected_problem` from `shared.py`.  Builds the last-wins
lookup of every directed pair, emits one entry per unordered pair in
first-encounter order with the merged label, and re-validates the result as an
`EdgeLabels` (`none` = pydantic `ValidationError`, raised when a merged label
is Python `None`). -/
def EdgeLabels.as_undirected_problem (el : EdgeLabels) : Option EdgeLabels :=
  let entries := el.edges.zip el.labels
  let merged := mergeLabels (dictLookup entries) entries []
  (allSome (merged.map (fun m => m.2))).map
    (fun ls => { edges := merged.map (fun m => m.1), labels := ls })

/-- `Graph` from `shared.py` (data-processing variant, with `classes`). -/
structure Graph where
  nodes : List Node
  edges : List Edge
  hierarchies : List NodeHierarchy
  edge_labels : EdgeLabels
  directed : Bool
  classes : List Class

/-- The edge loop of `Graph.as_undirected_problem`: keep a `seen` set of
directed keys; an edge whose key and reversed key are both unseen is emitted
through `Edge.as_undirected_problem` and its (forward) key recorded. -/
def undirectedEdgeList : List Edge → List (Nat × Nat) → List Edge
  | [], _ => []
  | e :: rest, seen =>
    if (e.from_, e.to_) ∈ seen ∨ (e.to_, e.from_) ∈ seen then
      undirectedEdgeList rest seen
    else
      e.as_undirected_problem :: undirectedEdgeList rest ((e.from_, e.to_) :: seen)

/-- The same loop keeping the original (unswapped) edges: the first directed
edge encountered for each unordered pair. -/
def firstPairOccurrences : List Edge → List (Nat × Nat) → List Edge
  | [], _ => []
  | e :: rest, seen =>
    if (e.from_, e.to_) ∈ seen ∨ (e.to_, e.from_) ∈ seen then
      firstPairOccurrences rest seen
    else
      e :: firstPairOccurrences rest ((e.from_, e.to_) :: seen)

/-- `Graph.as_undirected_problem` from `shared.py`: an already-undirected graph
is returned unchanged; otherwise the edge list is deduplicated by unordered
pair, the edge labels are projected (which may raise, hence the `Option`), and
the `directed` flag is cleared. -/
def Graph.as_undirected_problem (g : Graph) : Option Graph :=
  if g.directed then
    (g.edge_labels.as_undirected_problem).map
      (fun el => { g with edges := undirectedEdgeList g.edges [],
                          edge_labels := el,
                          directed := false })
  else
    some g

/-- The projected edge-label pair list alone (the `undirected_edges`
accumulator of `EdgeLabels.as_undirected_problem`), which is built before the
labels are validated. -/
def EdgeLabels.undirected_pairs (el : EdgeLabels) : List (Nat × Nat) :=
  let entries := el.edges.zip el.labels
  (mergeLabels (dictLookup entries) entries []).map (fun m => m.1)

/-- `VersionTripleMetadata` from `shared.py`. -/
structure VersionTripleMetadata where
  only_common_nodes_for_training : Bool
  gnn_safe : Bool
  magic_number : Nat

/-- `VersionTriple` from `shared.py`. -/
structure VersionTriple where
  project : String
  version_1 : String
  version_2 : String
  version_3 : String
  training_graph : Graph
  test_graph : Graph
  metadata : VersionTripleMetadata

/-- The `output` dictionary produced by `evaluate` in `shared.py`. -/
structure EvalOutput where
  true_positives : Nat
  false_positives : Nat
  false_negatives : Nat
  true_negatives : Nat
  predicted_dependencies : List (String × String)
deriving DecidableEq, Repr

/-- The full dictionary returned by `evaluate` (confusion counts plus echoed
project/version identifiers). -/
structure EvalResult where
  project : String
  version_1 : String
  version_2 : String
  version_3 : String
  output : EvalOutput
deriving DecidableEq, Repr

/-- The `limited_to` filter of `evaluate`: `if limited_to is not None and
edge not in limited_to: continue`.  The `models/shared.py` variant of
`evaluate` has no `limited_to` parameter; it is the `none` case. -/
def limOk (lim : Option (List (Nat × Nat))) (e : Nat × Nat) : Bool :=
  match lim with
  | none => true
  | some l => decide (e ∈ l)

/-- The names recorded for a predicted-positive entry: the node list access
`triple.test_graph.nodes[edge[i]].name` raises `IndexError` (modelled by
`none`) if the index is out of range; a negative prediction records
nothing. -/
def predNames (nodes : List Node) (e : Nat × Nat) (pred : Bool) :
    Option (List (String × String)) :=
  if pred then
    (nodes.get? e.1).bind (fun a =>
      (nodes.get? e.2).bind (fun b => some [(a.name, b.name)]))
  else some []

/-- The loop of `evaluate` over `zip(edges, zip(labels, predictions))`:
exactly one confusion counter is incremented per scored entry, and a
predicted positive additionally records its pair of node names. -/
def evalLoop (nodes : List Node) (lim : Option (List (Nat × Nat))) :
    List ((Nat × Nat) × Bool × Bool) → Option EvalOutput
  | [] => some ⟨0, 0, 0, 0, []⟩
  | (e, truth, pred) :: rest =>
    if limOk lim e then
      (predNames nodes e pred).bind (fun headPred =>
        (evalLoop nodes lim rest).bind (fun r =>
          some ⟨(if truth && pred then 1 else 0) + r.true_positives,
                (if pred && !truth then 1 else 0) + r.false_positives,
                (if truth && !pred then 1 else 0) + r.false_negatives,
                (if !truth && !pred then 1 else 0) + r.true_negatives,
                headPred ++ r.predicted_dependencies⟩))
    else evalLoop nodes lim rest

/-- `evaluate` from `shared.py`: scores a boolean prediction list against the
test graph's edge labels.  `none` models a raised `IndexError`. -/
def evaluate (triple : VersionTriple) (predictions : List Bool)
    (limited_to : Option (List (Nat × Nat))) : Option EvalResult :=
  (evalLoop triple.test_graph.nodes limited_to
    (triple.test_graph.edge_labels.edges.zip
      (triple.test_graph.edge_labels.labels.zip predictions))).map
    (fun out => { project := triple.project,
                  version_1 := triple.version_1,
                  version_2 := triple.version_2,
                  version_3 := triple.version_3,
                  output := out })

/-- The entries actually scored by `evaluate`: the zipped
`(edge, (label, prediction))` entries surviving the `limited_to` filter. -/
def scoredEntries (triple : VersionTriple) (predictions : List Bool)
    (limited_to : Option (List (Nat × Nat))) : List ((Nat × Nat) × Bool × Bool) :=
  (triple.test_graph.edge_labels.edges.zip
    (triple.test_graph.edge_labels.labels.zip predictions)).filter
    (fun x => limOk limited_to x.1)

/-- A triple with the test graph's edge-label lists cut down to their first
`k` entries (used to state which prefix of the inputs `evaluate` reads). -/
def truncateTriple (triple : VersionTriple) (k : Nat) : VersionTriple :=
  { triple with
    test_graph := { triple.test_graph with
      edge_labels := { edges := triple.test_graph.edge_labels.edges.take k,
                       labels := triple.test_graph.edge_labels.labels.take k } } }

/-!
Embedding of `src/replication/compute_network_metrics.py`.

A fully-qualified type or package name is modelled as its list of
dot-separated segments; Python's `'.'.join(name.split('.')[:-1])` is then
`List.dropLast`.
-/

/-- A fully-qualified name, as its dot-separated segments. -/
abbrev QName := List String

/-- The class-level dependency dictionary built by `Graph.from_xml`: each
`(typeName, classification)` key maps to its list of
`(dependencyName, classification)` targets. -/
abbrev ClassDiagram := List ((QName × String) × List (QName × String))

/-- `Graph._lift_to_packages`: every class-level edge `(source, target)` is
lifted to the package-level candidate edge obtained by stripping the last
dot-separated segment of both endpoints. -/
def packageEdges (d : ClassDiagram) : List (QName × QName) :=
  d.foldr (fun g acc => g.2.map (fun t => (g.1.1.dropLast, t.1.dropLast)) ++ acc) []

/-- The vertex collection built by `Graph.__init__`: every key of the lifted
package dictionary together with every target, i.e. both endpoints of every
lifted edge (membership is what matters; Python keeps them in a `set`). -/
def graphNodes (d : ClassDiagram) : List QName :=
  (packageEdges d).map (fun e => e.1) ++ (packageEdges d).map (fun e => e.2)

/-- Adjacency in the `networkx.Graph` built by `Graph.__init__`: the
undirected graph relates `u` and `v` iff some lifted edge joins them in
either direction. -/
def adjacentB (d : ClassDiagram) (u v : QName) : Bool :=
  decide ((u, v) ∈ packageEdges d) || decide ((v, u) ∈ packageEdges d)

/-- The deduplicated vertex list (`list(self.graph.nodes())`), fixing one
concrete enumeration order of the vertex set. -/
def nodeList (d : ClassDiagram) : List QName :=
  (graphNodes d).dedup

/-- Number of vertices of the package-level graph. -/
def nodeCount (d : ClassDiagram) : Nat :=
  (nodeList d).length

/-- The adjacency matrix of the package-level `networkx` graph (over `ℚ`;
symmetric because the graph is undirected). -/
def builderAdj (d : ClassDiagram) :
    Matrix (Fin (nodeCount d)) (Fin (nodeCount d)) ℚ :=
  fun i j => if adjacentB d ((nodeList d).get i) ((nodeList d).get j) then 1 else 0

/-- The damping factor `beta = 0.005` of the Katz computation. -/
def beta : ℚ := 1 / 200

/-- Matrix inverse over `ℚ`, written out as `det⁻¹ • adjugate` so that it is
executable; over a field this agrees with Mathlib's `Matrix.inv`. -/
def matInv {n : Nat} (m : Matrix (Fin n) (Fin n) ℚ) : Matrix (Fin n) (Fin n) ℚ :=
  m.det⁻¹ • m.adjugate

/-- The cached matrix of `Graph.katz`: `aux = I - beta * A.T` (built by
`adj.T.multiply(-beta)` followed by `fill_diagonal(aux, 1 + diagonal)`),
then `sim = inv(aux)` and finally `1` subtracted from the diagonal, i.e.
`K = (I - beta * A.T)⁻¹ - I`. -/
def katzMatrix {n : Nat} (a : Matrix (Fin n) (Fin n) ℚ) : Matrix (Fin n) (Fin n) ℚ :=
  matInv (1 - beta • a.transpose) - 1

/-- Modelled from the spec: the Katz matrix as the specification writes it,
`K = (I + beta * A.T)⁻¹ - I` (to be compared against `katzMatrix`, which is
the code's computation). -/
def specKatzMatrix {n : Nat} (a : Matrix (Fin n) (Fin n) ℚ) : Matrix (Fin n) (Fin n) ℚ :=
  matInv (1 + beta • a.transpose) - 1

/-- The Katz matrix of the package-level graph built from a class diagram. -/
def builderKatz (d : ClassDiagram) :
    Matrix (Fin (nodeCount d)) (Fin (nodeCount d)) ℚ :=
  katzMatrix (builderAdj d)

/-- `_is_ignored` from `generate_metrics`: a name starting with `java.`,
`javax.` or `sun.` (on segment lists: first segment `java`/`javax`/`sun`
followed by at least one further segment, which is exactly when the joined
string starts with the prefix and its trailing dot). -/
def isIgnoredName : QName → Bool
  | p :: _ :: _ => p == "java" || p == "javax" || p == "sun"
  | _ => false

/-- The inner sweep loop of `generate_metrics` for a fixed `x`: every pair
`(x, y)` with `y` a distinct vertex is consumed (popped) from the semantic
table if present. -/
def innerSweep (x : QName) (t : List (QName × QName)) (nodes : List QName) :
    List (QName × QName) :=
  nodes.foldl (fun acc y => if x = y then acc else acc.filter (fun k => k ≠ (x, y))) t

/-- The full pairwise sweep of `generate_metrics`: what remains of the
semantic-feature table after every ordered pair of distinct vertices has
consumed its entry. -/
def sweepRemaining (table : List (QName × QName)) (nodes : List QName) :
    List (QName × QName) :=
  nodes.foldl (fun acc x => innerSweep x acc nodes) table

/-- The `links-without-topology` list of the output dataset: the semantic
entries never consumed by the sweep, minus those with an ignored endpoint. -/
def linksWithoutTopology (table : List (QName × QName)) (nodes : List QName) :
    List (QName × QName) :=
  (sweepRemaining table nodes).filter
    (fun k => !isIgnoredName k.1 && !isIgnoredName k.2)

/-!
Theorems.
-/

/-- An empty dependency specification (no typed counts). -/
def emptySpec : DependencySpec := ⟨[]⟩

/-- C1: on an `EdgeLabels` holding a single false-labelled directed edge with
no reverse counterpart, the merged label is Python `None`
(`lookup.get((to, fr))` finds no entry), so rebuilding the `EdgeLabels` fails
pydantic validation of `labels: list[bool]` instead of emitting label
`false`. -/
theorem c1_single_false_edge_fails :
    EdgeLabels.as_undirected_problem ⟨[(0, 1)], [false]⟩ = none ∧
      mergeLabels (dictLookup [((0, 1), false)]) [((0, 1), false)] []
        = [((0, 1), none)] := by
  exact ⟨rfl, rfl⟩

/-- C8: projecting a graph whose `directed` flag is already `false` returns
that graph unchanged. -/
theorem c8_projection_fixes_undirected (g : Graph) (h : g.directed = false) :
    g.as_undirected_problem = some g := by
  simp [Graph.as_undirected_problem, h]

/-- A concrete undirected graph used to instantiate C8. -/
def c8Graph : Graph :=
  { nodes := [⟨"a", [1], []⟩], edges := [⟨0, 0, emptySpec⟩], hierarchies := [],
    edge_labels := ⟨[(0, 0)], [true]⟩, directed := false, classes := [] }

/-- Witness for C8 at a concrete undirected graph. -/
theorem c8_projection_fixes_undirected_witness :
    c8Graph.as_undirected_problem = some c8Graph :=
  c8_projection_fixes_undirected c8Graph rfl

/-- A concrete directed graph with the single edge `(0, 1)`. -/
def c4Graph : Graph :=
  { nodes := [], edges := [⟨0, 1, emptySpec⟩], hierarchies := [],
    edge_labels := ⟨[], []⟩, directed := true, classes := [] }

/-- C4 counterexample: projecting a directed graph with the single edge
`(0, 1)` emits the edge `(1, 0)`: the emitted `from`/`to` fields are not
those of the first-encountered edge but their swap. -/
theorem c4_counterexample_orientation_swapped :
    (c4Graph.as_undirected_problem).map (fun g => g.edges.map (fun e => (e.from_, e.to_)))
        = some [(1, 0)] ∧
      ((1 : Nat), (0 : Nat)) ≠ ((0 : Nat), (1 : Nat)) := by
  exact ⟨rfl, by decide⟩

/-- The emitted edges are the first-encounter representatives passed through
the `from`/`to` swap of `Edge.as_undirected_problem`. -/
theorem undirectedEdgeList_eq_map_first (l : List Edge) :
    ∀ seen, undirectedEdgeList l seen
      = (firstPairOccurrences l seen).map Edge.as_undirected_problem := by
  induction l with
  | nil => intro seen; rfl
  | cons e rest ih =>
    intro seen
    by_cases h : (e.from_, e.to_) ∈ seen ∨ (e.to_, e.from_) ∈ seen
    · simp [undirectedEdgeList, firstPairOccurrences, h, ih]
    · simp [undirectedEdgeList, firstPairOccurrences, h, ih]

/-- The first-encounter representatives form a subsequence of the original
edge list. -/
theorem firstPairOccurrences_sublist (l : List Edge) :
    ∀ seen, (firstPairOccurrences l seen).Sublist l := by
  induction l with
  | nil => intro seen; simp [firstPairOccurrences]
  | cons e rest ih =>
    intro seen
    by_cases h : (e.from_, e.to_) ∈ seen ∨ (e.to_, e.from_) ∈ seen
    · simp only [firstPairOccurrences, if_pos h]
      exact (ih seen).cons e
    · simp only [firstPairOccurrences, if_neg h]
      exact (ih _).cons₂ e

/-- C4 amended: each emitted undirected edge is the first directed edge
encountered for its unordered pair with its orientation swapped — the emitted
`from` is that edge's `to` and the emitted `to` is that edge's `from`, the
`edge_type` being preserved; the first-encountered representatives form a
subsequence of the input edge list. -/
theorem c4_amended_first_encounter_swapped (g g' : Graph)
    (hd : g.directed = true) (h : g.as_undirected_problem = some g') :
    g'.edges = (firstPairOccurrences g.edges []).map
        (fun e => { from_ := e.to_, to_ := e.from_, edge_type := e.edge_type }) ∧
      (firstPairOccurrences g.edges []).Sublist g.edges := by
  unfold Graph.as_undirected_problem at h
  rw [hd] at h
  simp only [if_true] at h
  rcases Option.map_eq_some'.mp h with ⟨el, _, hg'⟩
  constructor
  · rw [← hg']
    exact undirectedEdgeList_eq_map_first g.edges []
  · exact firstPairOccurrences_sublist g.edges []

/-- The projection of `c4Graph` (edge swapped, labels empty, flag cleared). -/
def c4Projected : Graph :=
  { nodes := [], edges := [⟨1, 0, emptySpec⟩], hierarchies := [],
    edge_labels := ⟨[], []⟩, directed := false, classes := [] }

/-- Witness for the amended C4 at the concrete graph `c4Graph`. -/
theorem c4_amended_first_encounter_swapped_witness :
    c4Projected.edges = (firstPairOccurrences c4Graph.edges []).map
        (fun e => { from_ := e.to_, to_ := e.from_, edge_type := e.edge_type }) ∧
      (firstPairOccurrences c4Graph.edges []).Sublist c4Graph.edges :=
  c4_amended_first_encounter_swapped c4Graph c4Projected rfl rfl

/-- The `(from, to)` index pairs of an edge list. -/
def edgePairs (l : List Edge) : List (Nat × Nat) :=
  l.map (fun e => (e.from_, e.to_))

/-- Whether a pair list contains two entries covering the same unordered
pair of node indices (equal, or equal after swapping one of them). -/
def hasUnorderedDup : List (Nat × Nat) → Bool
  | [] => false
  | p :: rest => rest.any (fun q => q == p || q == (p.2, p.1)) || hasUnorderedDup rest

/-- Every pair emitted by the edge loop avoids (in the unordered sense) every
key already recorded in `seen`. -/
theorem undirectedEdgeList_avoids_seen (l : List Edge) :
    ∀ seen, ∀ q ∈ edgePairs (undirectedEdgeList l seen), ∀ s ∈ seen,
      q ≠ s ∧ q ≠ (s.2, s.1) := by
  induction l with
  | nil => intro seen q hq; simp [undirectedEdgeList, edgePairs] at hq
  | cons e rest ih =>
    intro seen q hq s hs
    by_cases h : (e.from_, e.to_) ∈ seen ∨ (e.to_, e.from_) ∈ seen
    · rw [undirectedEdgeList, if_pos h] at hq
      exact ih seen q hq s hs
    · rw [undirectedEdgeList, if_neg h] at hq
      push_neg at h
      obtain ⟨s1, s2⟩ := s
      simp only [edgePairs, List.map_cons, Edge.as_undirected_problem] at hq
      rcases List.mem_cons.mp hq with hq | hq
      · subst hq
        constructor
        · intro he
          apply h.2
          rw [show e.to_ = s1 from congrArg Prod.fst he,
              show e.from_ = s2 from congrArg Prod.snd he]
          exact hs
        · intro he
          apply h.1
          rw [show e.from_ = s1 from congrArg Prod.snd he,
              show e.to_ = s2 from congrArg Prod.fst he]
          exact hs
      · exact ih _ q hq (s1, s2) (List.mem_cons_of_mem _ hs)

/-- The edge loop never emits two edges covering the same unordered pair. -/
theorem undirectedEdgeList_no_dup (l : List Edge) :
    ∀ seen, hasUnorderedDup (edgePairs (undirectedEdgeList l seen)) = false := by
  induction l with
  | nil => intro seen; rfl
  | cons e rest ih =>
    intro seen
    by_cases h : (e.from_, e.to_) ∈ seen ∨ (e.to_, e.from_) ∈ seen
    · rw [undirectedEdgeList, if_pos h]; exact ih seen
    · rw [undirectedEdgeList, if_neg h]
      have havoid := undirectedEdgeList_avoids_seen rest ((e.from_, e.to_) :: seen)
      simp only [edgePairs, List.map_cons, Edge.as_undirected_problem, hasUnorderedDup,
        Bool.or_eq_false_iff]
      constructor
      · rw [List.any_eq_false]
        intro q hq hcon
        have hav := havoid q hq (e.from_, e.to_) (List.mem_cons_self _ _)
        simp only [Bool.or_eq_true, beq_iff_eq] at hcon
        rcases hcon with hcon | hcon
        · exact hav.2 hcon
        · exact hav.1 hcon
      · exact ih _

/-- The edge loop emits at most as many edges as it reads. -/
theorem undirectedEdgeList_length_le (l : List Edge) :
    ∀ seen, (undirectedEdgeList l seen).length ≤ l.length := by
  induction l with
  | nil => intro seen; simp [undirectedEdgeList]
  | cons e rest ih =>
    intro seen
    by_cases h : (e.from_, e.to_) ∈ seen ∨ (e.to_, e.from_) ∈ seen
    · rw [undirectedEdgeList, if_pos h]
      exact Nat.le_succ_of_le (ih seen)
    · rw [undirectedEdgeList, if_neg h]
      simpa using Nat.succ_le_succ (ih _)

/-- Every pair emitted by the label-merge loop avoids (in the unordered
sense) every key already recorded in `seen`. -/
theorem mergeLabels_avoids_seen (lookup : Nat × Nat → Option Bool)
    (l : List ((Nat × Nat) × Bool)) :
    ∀ seen, ∀ q ∈ (mergeLabels lookup l seen).map (fun m => m.1), ∀ s ∈ seen,
      q ≠ s ∧ q ≠ (s.2, s.1) := by
  induction l with
  | nil => intro seen q hq; simp [mergeLabels] at hq
  | cons pf rest ih =>
    obtain ⟨p, flag⟩ := pf
    intro seen q hq s hs
    by_cases h : p ∈ seen ∨ (p.2, p.1) ∈ seen
    · rw [mergeLabels, if_pos h] at hq
      exact ih seen q hq s hs
    · rw [mergeLabels, if_neg h] at hq
      push_neg at h
      obtain ⟨s1, s2⟩ := s
      simp only [List.map_cons] at hq
      rcases List.mem_cons.mp hq with hqp | hq
      · constructor
        · intro he
          apply h.1
          rw [← hqp, he]
          exact hs
        · intro he
          apply h.2
          rw [show p.2 = s1 from hqp ▸ congrArg Prod.snd he,
              show p.1 = s2 from hqp ▸ congrArg Prod.fst he]
          exact hs
      · exact ih _ q hq (s1, s2) (List.mem_cons_of_mem _ hs)

/-- The label-merge loop never emits two entries covering the same unordered
pair. -/
theorem mergeLabels_no_dup (lookup : Nat × Nat → Option Bool)
    (l : List ((Nat × Nat) × Bool)) :
    ∀ seen, hasUnorderedDup ((mergeLabels lookup l seen).map (fun m => m.1)) = false := by
  induction l with
  | nil => intro seen; rfl
  | cons pf rest ih =>
    obtain ⟨p, flag⟩ := pf
    intro seen
    by_cases h : p ∈ seen ∨ (p.2, p.1) ∈ seen
    · rw [mergeLabels, if_pos h]
      exact ih seen
    · rw [mergeLabels, if_neg h]
      have havoid := mergeLabels_avoids_seen lookup rest (p :: seen)
      simp only [List.map_cons, hasUnorderedDup, Bool.or_eq_false_iff]
      constructor
      · rw [List.any_eq_false]
        intro q hq hcon
        have hav := havoid q hq p (List.mem_cons_self _ _)
        simp only [Bool.or_eq_true, beq_iff_eq] at hcon
        rcases hcon with hcon | hcon
        · exact hav.1 hcon
        · exact hav.2 hcon
      · exact ih _

/-- The label-merge loop emits at most as many entries as it reads. -/
theorem mergeLabels_length_le (lookup : Nat × Nat → Option Bool)
    (l : List ((Nat × Nat) × Bool)) :
    ∀ seen, (mergeLabels lookup l seen).length ≤ l.length := by
  induction l with
  | nil => intro seen; simp [mergeLabels]
  | cons pf rest ih =>
    obtain ⟨p, flag⟩ := pf
    intro seen
    by_cases h : p ∈ seen ∨ (p.2, p.1) ∈ seen
    · rw [mergeLabels, if_pos h]
      exact Nat.le_succ_of_le (ih seen)
    · rw [mergeLabels, if_neg h]
      simpa using Nat.succ_le_succ (ih _)

/-- A successful `EdgeLabels` projection emits exactly the accumulated pair
list. -/
theorem edgeLabels_proj_edges (el el' : EdgeLabels)
    (h : el.as_undirected_problem = some el') :
    el'.edges = el.undirected_pairs := by
  unfold EdgeLabels.as_undirected_problem at h
  rcases Option.map_eq_some'.mp h with ⟨ls, _, hel⟩
  rw [← hel]
  rfl

/-- An input graph whose `directed` flag is false but whose edge list holds
two copies of the same pair. -/
def c6Graph : Graph :=
  { nodes := [], edges := [⟨0, 1, emptySpec⟩, ⟨0, 1, emptySpec⟩], hierarchies := [],
    edge_labels := ⟨[(0, 1), (0, 1)], [false, false]⟩, directed := false, classes := [] }

/-- C6 counterexample: on an input graph that is already marked undirected,
`as_undirected_problem` returns the graph unchanged, so an input with
duplicate unordered pairs yields an output with duplicate unordered pairs. -/
theorem c6_counterexample_undirected_passthrough :
    c6Graph.as_undirected_problem = some c6Graph ∧
      hasUnorderedDup (edgePairs c6Graph.edges) = true := by
  exact ⟨rfl, rfl⟩

/-- C6 amended: for every input graph whose `directed` flag is set, the
projected graph has no two edges covering the same unordered pair and at most
as many edges as the input, and its projected edge-label pair list likewise
has no duplicate unordered pairs and at most as many entries as the input's. -/
theorem c6_amended_no_dup_pairs (g g' : Graph)
    (hd : g.directed = true) (h : g.as_undirected_problem = some g') :
    hasUnorderedDup (edgePairs g'.edges) = false ∧
      g'.edges.length ≤ g.edges.length ∧
      hasUnorderedDup g'.edge_labels.edges = false ∧
      g'.edge_labels.edges.length ≤ g.edge_labels.edges.length := by
  unfold Graph.as_undirected_problem at h
  rw [hd] at h
  simp only [if_true] at h
  rcases Option.map_eq_some'.mp h with ⟨el, hel, hg'⟩
  have hedges : g'.edges = undirectedEdgeList g.edges [] := by rw [← hg']
  have hlabels : g'.edge_labels = el := by rw [← hg']
  have help := edgeLabels_proj_edges g.edge_labels el hel
  refine ⟨?_, ?_, ?_, ?_⟩
  · rw [hedges]; exact undirectedEdgeList_no_dup g.edges []
  · rw [hedges]; exact undirectedEdgeList_length_le g.edges []
  · rw [hlabels, help]
    exact mergeLabels_no_dup _ _ []
  · rw [hlabels, help]
    have hm := mergeLabels_length_le
      (dictLookup (g.edge_labels.edges.zip g.edge_labels.labels))
      (g.edge_labels.edges.zip g.edge_labels.labels) []
    have hz : (g.edge_labels.edges.zip g.edge_labels.labels).length
        ≤ g.edge_labels.edges.length := by
      rw [List.length_zip]
      exact Nat.min_le_left _ _
    unfold EdgeLabels.undirected_pairs
    rw [List.length_map]
    exact le_trans hm hz

/-- A concrete directed graph with duplicated directed pairs, used to
instantiate the amended C6. -/
def c6WitnessGraph : Graph :=
  { nodes := [], edges := [⟨0, 1, emptySpec⟩, ⟨1, 0, emptySpec⟩, ⟨0, 1, emptySpec⟩],
    hierarchies := [],
    edge_labels := ⟨[(0, 1), (1, 0)], [true, false]⟩, directed := true, classes := [] }

/-- The projection of `c6WitnessGraph`. -/
def c6WitnessProjected : Graph :=
  { nodes := [], edges := [⟨1, 0, emptySpec⟩], hierarchies := [],
    edge_labels := ⟨[(0, 1)], [true]⟩, directed := false, classes := [] }

/-- Witness for the amended C6 at a concrete directed graph with duplicate
directed pairs. -/
theorem c6_amended_no_dup_pairs_witness :
    hasUnorderedDup (edgePairs c6WitnessProjected.edges) = false ∧
      c6WitnessProjected.edges.length ≤ c6WitnessGraph.edges.length ∧
      hasUnorderedDup c6WitnessProjected.edge_labels.edges = false ∧
      c6WitnessProjected.edge_labels.edges.length
        ≤ c6WitnessGraph.edge_labels.edges.length :=
  c6_amended_no_dup_pairs c6WitnessGraph c6WitnessProjected rfl rfl

/-- Accounting invariant of the `evaluate` loop: one confusion counter per
scored entry, and one predicted dependency per scored predicted-positive
entry. -/
theorem evalLoop_accounting (nodes : List Node) (lim : Option (List (Nat × Nat)))
    (z : List ((Nat × Nat) × Bool × Bool)) :
    ∀ out, evalLoop nodes lim z = some out →
      out.true_positives + out.false_positives + out.false_negatives + out.true_negatives
          = (z.filter (fun x => limOk lim x.1)).length ∧
        out.predicted_dependencies.length
          = (z.filter (fun x => limOk lim x.1 && x.2.2)).length := by
  induction z with
  | nil =>
    intro out h
    simp only [evalLoop, Option.some.injEq] at h
    rw [← h]
    exact ⟨rfl, rfl⟩
  | cons x rest ih =>
    obtain ⟨e, truth, pred⟩ := x
    intro out h
    by_cases hl : limOk lim e
    · rw [evalLoop, if_pos hl] at h
      rcases Option.bind_eq_some.mp h with ⟨headPred, hhead, h2⟩
      rcases Option.bind_eq_some.mp h2 with ⟨r, hr, h3⟩
      obtain ⟨hsum, hlen⟩ := ih r hr
      have hhl : headPred.length = if pred then 1 else 0 := by
        cases pred with
        | false =>
          simp only [predNames, Bool.false_eq_true, if_false,
            Option.some.injEq] at hhead
          rw [← hhead]
          rfl
        | true =>
          simp only [predNames, if_true] at hhead
          rcases Option.bind_eq_some.mp hhead with ⟨a, _, hh2⟩
          rcases Option.bind_eq_some.mp hh2 with ⟨b, _, hh3⟩
          rw [← Option.some.inj hh3]
          rfl
      rw [← Option.some.inj h3]
      constructor
      · show (if truth && pred then 1 else 0) + r.true_positives
            + ((if pred && !truth then 1 else 0) + r.false_positives)
            + ((if truth && !pred then 1 else 0) + r.false_negatives)
            + ((if !truth && !pred then 1 else 0) + r.true_negatives)
            = (((e, truth, pred) :: rest).filter (fun x => limOk lim x.1)).length
        rw [List.filter_cons_of_pos (by simpa using hl), List.length_cons]
        cases truth <;> cases pred <;> simp <;> omega
      · show (headPred ++ r.predicted_dependencies).length
            = (((e, truth, pred) :: rest).filter (fun x => limOk lim x.1 && x.2.2)).length
        rw [List.length_append, hhl, hlen]
        cases pred with
        | false =>
          rw [List.filter_cons_of_neg (by simp)]
          simp
        | true =>
          rw [List.filter_cons_of_pos (by simpa using hl), List.length_cons]
          simp [Nat.add_comm]
    · rw [evalLoop, if_neg hl] at h
      obtain ⟨hsum, hlen⟩ := ih out h
      rw [List.filter_cons_of_neg (by simpa using hl),
        List.filter_cons_of_neg (by simp [hl])]
      exact ⟨hsum, hlen⟩

/-- C7: whenever `evaluate` returns, its four confusion counts sum to the
number of scored entries, and the predicted-dependency list has one entry per
scored predicted-positive. -/
theorem c7_evaluate_accounting (triple : VersionTriple) (predictions : List Bool)
    (limited_to : Option (List (Nat × Nat))) (res : EvalResult)
    (h : evaluate triple predictions limited_to = some res) :
    res.output.true_positives + res.output.false_positives
        + res.output.false_negatives + res.output.true_negatives
        = (scoredEntries triple predictions limited_to).length ∧
      res.output.predicted_dependencies.length
        = ((scoredEntries triple predictions limited_to).filter
            (fun x => x.2.2)).length := by
  unfold evaluate at h
  rcases Option.map_eq_some'.mp h with ⟨out, hloop, hres⟩
  obtain ⟨hsum, hlen⟩ := evalLoop_accounting _ _ _ out hloop
  have hout : res.output = out := by rw [← hres]
  rw [hout]
  refine ⟨hsum, ?_⟩
  rw [hlen]
  unfold scoredEntries
  rw [List.filter_filter]
  exact congrArg List.length (List.filter_congr (fun x _ => Bool.and_comm _ _))

/-- A concrete version triple with one labelled edge, used to instantiate the
evaluation theorems. -/
def c7TrainGraph : Graph :=
  { nodes := [], edges := [], hierarchies := [], edge_labels := ⟨[], []⟩,
    directed := false, classes := [] }

/-- The test graph of `c7Triple`: two named nodes and one true-labelled
candidate pair. -/
def c7TestGraph : Graph :=
  { nodes := [⟨"a", [], []⟩, ⟨"b", [], []⟩], edges := [], hierarchies := [],
    edge_labels := ⟨[(0, 1)], [true]⟩, directed := false, classes := [] }

def c7Triple : VersionTriple :=
  { project := "p", version_1 := "1", version_2 := "2", version_3 := "3",
    training_graph := c7TrainGraph, test_graph := c7TestGraph,
    metadata := ⟨false, false, 0x00010101⟩ }

/-- The result `evaluate` produces on `c7Triple` with the prediction `[true]`. -/
def c7Result : EvalResult :=
  { project := "p", version_1 := "1", version_2 := "2", version_3 := "3",
    output := ⟨1, 0, 0, 0, [("a", "b")]⟩ }

/-- Witness for C7 at a concrete triple and prediction list. -/
theorem c7_evaluate_accounting_witness :
    c7Result.output.true_positives + c7Result.output.false_positives
        + c7Result.output.false_negatives + c7Result.output.true_negatives
        = (scoredEntries c7Triple [true] none).length ∧
      c7Result.output.predicted_dependencies.length
        = ((scoredEntries c7Triple [true] none).filter (fun x => x.2.2)).length :=
  c7_evaluate_accounting c7Triple [true] none c7Result (by rfl)

/-- When every entry's node indices are in range, the `evaluate` loop never
hits an `IndexError`. -/
theorem evalLoop_total (nodes : List Node) (lim : Option (List (Nat × Nat)))
    (z : List ((Nat × Nat) × Bool × Bool))
    (hz : ∀ x ∈ z, x.1.1 < nodes.length ∧ x.1.2 < nodes.length) :
    ∃ out, evalLoop nodes lim z = some out := by
  induction z with
  | nil => exact ⟨_, rfl⟩
  | cons x rest ih =>
    obtain ⟨e, truth, pred⟩ := x
    obtain ⟨r, hr⟩ := ih (fun y hy => hz y (List.mem_cons_of_mem _ hy))
    by_cases hl : limOk lim e
    · obtain ⟨h1, h2⟩ := hz (e, truth, pred) (List.mem_cons_self _ _)
      have hnames : ∃ hp, predNames nodes e pred = some hp := by
        cases pred with
        | false => exact ⟨[], rfl⟩
        | true =>
          have hpn : predNames nodes e true
              = (nodes.get? e.1).bind (fun a =>
                  (nodes.get? e.2).bind (fun b => some [(a.name, b.name)])) := rfl
          rw [hpn, List.get?_eq_get h1, List.get?_eq_get h2]
          exact ⟨_, rfl⟩
      obtain ⟨hp, hhp⟩ := hnames
      refine ⟨⟨(if truth && pred then 1 else 0) + r.true_positives,
              (if pred && !truth then 1 else 0) + r.false_positives,
              (if truth && !pred then 1 else 0) + r.false_negatives,
              (if !truth && !pred then 1 else 0) + r.true_negatives,
              hp ++ r.predicted_dependencies⟩, ?_⟩
      rw [evalLoop, if_pos hl, hhp, Option.some_bind, hr, Option.some_bind]
    · rw [evalLoop, if_neg hl]
      exact ⟨r, hr⟩

/-- Zipping commutes with simultaneous truncation. -/
theorem zip_take_comm {α β : Type} (l1 : List α) (l2 : List β) (n : Nat) :
    (l1.zip l2).take n = (l1.take n).zip (l2.take n) := by
  simp [List.zip, List.take_zipWith]

/-- C10: under the data model's hard invariants (aligned `edges`/`labels`
lists and in-range node indices), `evaluate` raises no error for prediction
lists of any length, and its result is exactly the result on the inputs
truncated to the first `min(len(edges), len(predictions))` aligned positions:
the excess of the longer sequence is silently ignored. -/
theorem c10_prefix_alignment (triple : VersionTriple) (predictions : List Bool)
    (limited_to : Option (List (Nat × Nat)))
    (hlen : triple.test_graph.edge_labels.labels.length
      = triple.test_graph.edge_labels.edges.length)
    (hidx : ∀ e ∈ triple.test_graph.edge_labels.edges,
      e.1 < triple.test_graph.nodes.length ∧ e.2 < triple.test_graph.nodes.length) :
    (∃ res, evaluate triple predictions limited_to = some res) ∧
      evaluate triple predictions limited_to
        = evaluate
            (truncateTriple triple
              (min triple.test_graph.edge_labels.edges.length predictions.length))
            (predictions.take
              (min triple.test_graph.edge_labels.edges.length predictions.length))
            limited_to := by
  set edges := triple.test_graph.edge_labels.edges with hedges
  set labels := triple.test_graph.edge_labels.labels with hlabels
  set k := min edges.length predictions.length with hk
  have hzlen : (edges.zip (labels.zip predictions)).length ≤ k := by
    rw [List.length_zip, List.length_zip, hlen]
    omega
  have hz : edges.zip (labels.zip predictions)
      = (edges.take k).zip ((labels.take k).zip (predictions.take k)) := by
    rw [← zip_take_comm, ← zip_take_comm, List.take_of_length_le hzlen]
  constructor
  · obtain ⟨out, hout⟩ := evalLoop_total triple.test_graph.nodes limited_to
      (edges.zip (labels.zip predictions))
      (fun x hx => hidx x.1 (List.of_mem_zip hx).1)
    refine ⟨{ project := triple.project, version_1 := triple.version_1,
              version_2 := triple.version_2, version_3 := triple.version_3,
              output := out }, ?_⟩
    unfold evaluate
    rw [← hedges, ← hlabels, hout]
    rfl
  · unfold evaluate truncateTriple
    simp only
    rw [← hedges, ← hlabels, ← hz]

/-- A test graph with two named nodes and one labelled candidate pair, used
to instantiate C10 with a longer prediction list. -/
def c10TestGraph : Graph :=
  { nodes := [⟨"a", [], []⟩, ⟨"b", [], []⟩], edges := [], hierarchies := [],
    edge_labels := ⟨[(0, 1)], [true]⟩, directed := false, classes := [] }

def c10Triple : VersionTriple :=
  { project := "p", version_1 := "1", version_2 := "2", version_3 := "3",
    training_graph := { nodes := [], edges := [], hierarchies := [],
                        edge_labels := ⟨[], []⟩, directed := false, classes := [] },
    test_graph := c10TestGraph,
    metadata := ⟨false, false, 0x00010101⟩ }

/-- Witness for C10 at a triple with one labelled edge and three
predictions. -/
theorem c10_prefix_alignment_witness :
    (∃ res, evaluate c10Triple [true, false, true] none = some res) ∧
      evaluate c10Triple [true, false, true] none
        = evaluate
            (truncateTriple c10Triple
              (min c10Triple.test_graph.edge_labels.edges.length
                [true, false, true].length))
            ([true, false, true].take
              (min c10Triple.test_graph.edge_labels.edges.length
                [true, false, true].length))
            none :=
  c10_prefix_alignment c10Triple [true, false, true] none rfl (by decide)

/-- Membership in the lifted package-level edge list: exactly the stripped
versions of the class-level edges. -/
theorem mem_packageEdges (d : ClassDiagram) (e : QName × QName) :
    e ∈ packageEdges d ↔
      ∃ g ∈ d, ∃ t ∈ g.2, e = (g.1.1.dropLast, t.1.dropLast) := by
  induction d with
  | nil => simp [packageEdges]
  | cons g rest ih =>
    rw [show packageEdges (g :: rest)
        = g.2.map (fun t => (g.1.1.dropLast, t.1.dropLast)) ++ packageEdges rest from rfl]
    simp only [List.mem_append, List.mem_map, List.mem_cons, ih]
    constructor
    · rintro (⟨t, ht, rfl⟩ | ⟨g', hg', t, ht, rfl⟩)
      · exact ⟨g, Or.inl rfl, t, ht, rfl⟩
      · exact ⟨g', Or.inr hg', t, ht, rfl⟩
    · rintro ⟨g', hg' | hg', t, ht, rfl⟩
      · exact Or.inl ⟨t, hg' ▸ ht, by rw [hg']⟩
      · exact Or.inr ⟨g', hg', t, ht, rfl⟩

/-- C3 amended: the package-level graph built from a class diagram is
undirected (adjacency is symmetric), and its vertices are exactly the
namespace names obtained by stripping the last dot-separated segment of a
fully-qualified type name occurring as an endpoint of some lifted edge;
parallel edges cannot exist since edges are kept as a set.  (Self-loops,
however, can occur — see the counterexample.) -/
theorem c3_amended_package_graph (d : ClassDiagram) (u v : QName) :
    adjacentB d u v = adjacentB d v u ∧
      (u ∈ graphNodes d ↔
        ∃ g ∈ d, ∃ t ∈ g.2, u = g.1.1.dropLast ∨ u = t.1.dropLast) := by
  constructor
  · unfold adjacentB
    exact Bool.or_comm _ _
  · unfold graphNodes
    simp only [List.mem_append, List.mem_map, mem_packageEdges]
    constructor
    · rintro (⟨e, ⟨g, hg, t, ht, rfl⟩, rfl⟩ | ⟨e, ⟨g, hg, t, ht, rfl⟩, rfl⟩)
      · exact ⟨g, hg, t, ht, Or.inl rfl⟩
      · exact ⟨g, hg, t, ht, Or.inr rfl⟩
    · rintro ⟨g, hg, t, ht, rfl | rfl⟩
      · exact Or.inl ⟨(g.1.1.dropLast, t.1.dropLast), ⟨g, hg, t, ht, rfl⟩, rfl⟩
      · exact Or.inr ⟨(g.1.1.dropLast, t.1.dropLast), ⟨g, hg, t, ht, rfl⟩, rfl⟩

/-- A class diagram with a single dependency between two types of the same
namespace `a`. -/
def c3Diagram : ClassDiagram :=
  [((["a", "X"], "class"), [(["a", "Y"], "uses")])]

/-- C3 counterexample: a dependency between two types of the same namespace
lifts to a self-loop — the built package-level graph relates vertex `a` to
itself, contradicting "no self-loops". -/
theorem c3_counterexample_self_loop :
    adjacentB c3Diagram ["a"] ["a"] = true ∧ (["a"] : QName) ∈ graphNodes c3Diagram := by
  exact ⟨by decide, by decide⟩

/-- Membership after the inner sweep for a fixed `x`: an entry survives iff
it was present and is not `(x, y)` for any distinct vertex `y`. -/
theorem innerSweep_mem (x : QName) (nodes : List QName) (q : QName × QName) :
    ∀ t, q ∈ innerSweep x t nodes ↔
      q ∈ t ∧ ∀ y ∈ nodes, x ≠ y → q ≠ (x, y) := by
  induction nodes with
  | nil => intro t; simp [innerSweep]
  | cons y ys ih =>
    intro t
    rw [show innerSweep x t (y :: ys)
        = innerSweep x (if x = y then t else t.filter (fun k => k ≠ (x, y))) ys from rfl,
      ih]
    by_cases hxy : x = y
    · rw [if_pos hxy]
      constructor
      · rintro ⟨hq, hys⟩
        refine ⟨hq, ?_⟩
        intro y' hy' hxy'
        rcases List.mem_cons.mp hy' with rfl | hy'
        · exact absurd hxy hxy'
        · exact hys y' hy' hxy'
      · rintro ⟨hq, hys⟩
        exact ⟨hq, fun y' hy' hxy' => hys y' (List.mem_cons_of_mem _ hy') hxy'⟩
    · rw [if_neg hxy]
      simp only [List.mem_filter, ne_eq, decide_not, Bool.not_eq_eq_eq_not,
        Bool.not_true, decide_eq_false_iff_not]
      constructor
      · rintro ⟨⟨hq, hne⟩, hys⟩
        refine ⟨hq, ?_⟩
        intro y' hy' hxy'
        rcases List.mem_cons.mp hy' with rfl | hy'
        · exact hne
        · exact hys y' hy' hxy'
      · rintro ⟨hq, hys⟩
        exact ⟨⟨hq, hys y (List.mem_cons_self _ _) hxy⟩,
          fun y' hy' hxy' => hys y' (List.mem_cons_of_mem _ hy') hxy'⟩

/-- Membership after the full pairwise sweep: an entry of the semantic table
survives iff it is not an ordered pair of distinct vertices. -/
theorem sweepRemaining_mem (nodes : List QName) (q : QName × QName) :
    ∀ (xs : List QName) (t : List (QName × QName)),
      q ∈ xs.foldl (fun acc x => innerSweep x acc nodes) t ↔
        q ∈ t ∧ ∀ x ∈ xs, ∀ y ∈ nodes, x ≠ y → q ≠ (x, y) := by
  intro xs
  induction xs with
  | nil => intro t; simp
  | cons x xs ih =>
    intro t
    rw [List.foldl_cons, ih, innerSweep_mem]
    constructor
    · rintro ⟨⟨hq, hx⟩, hxs⟩
      refine ⟨hq, ?_⟩
      intro x' hx' y hy hxy
      rcases List.mem_cons.mp hx' with rfl | hx'
      · exact hx y hy hxy
      · exact hxs x' hx' y hy hxy
    · rintro ⟨hq, hall⟩
      exact ⟨⟨hq, fun y hy hxy => hall x (List.mem_cons_self _ _) y hy hxy⟩,
        fun x' hx' y hy hxy => hall x' (List.mem_cons_of_mem _ hx') y hy hxy⟩

/-- C5 amended: every semantic-feature entry never consumed by the pairwise
sweep appears in the `links-without-topology` list, unless one of its
endpoints starts with an ignored prefix (`java.`, `javax.`, `sun.`), in which
case it is silently dropped. -/
theorem c5_amended_links_without_topology (table : List (QName × QName))
    (nodes : List QName) (k : QName × QName)
    (hmem : k ∈ table)
    (huncons : ¬(k.1 ∈ nodes ∧ k.2 ∈ nodes ∧ k.1 ≠ k.2))
    (hig1 : isIgnoredName k.1 = false) (hig2 : isIgnoredName k.2 = false) :
    k ∈ linksWithoutTopology table nodes := by
  unfold linksWithoutTopology
  rw [List.mem_filter]
  constructor
  · rw [show sweepRemaining table nodes
        = nodes.foldl (fun acc x => innerSweep x acc nodes) table from rfl,
      sweepRemaining_mem]
    refine ⟨hmem, ?_⟩
    rintro x hx y hy hxy rfl
    exact huncons ⟨hx, hy, fun h => hxy h⟩
  · rw [hig1, hig2]
    rfl

/-- A semantic table with one entry whose first endpoint has the ignored
prefix `java.`. -/
def c5Table : List (QName × QName) := [(["java", "x"], ["b"])]

/-- A vertex set not containing either endpoint of the table entry. -/
def c5Nodes : List QName := [["a"]]

/-- C5 counterexample: the entry `(java.x, b)` is never consumed by the sweep
(neither endpoint is a vertex), yet `links-without-topology` is empty — the
ignored-prefix filter silently drops it. -/
theorem c5_counterexample_ignored_entry_dropped :
    (((["java", "x"], ["b"]) : QName × QName) ∈ sweepRemaining c5Table c5Nodes) ∧
      linksWithoutTopology c5Table c5Nodes = [] := by
  exact ⟨by decide, by decide⟩

/-- A semantic table with a single unconsumed, non-ignored entry. -/
def c5WitnessTable : List (QName × QName) := [(["a"], ["c"])]

/-- Witness for the amended C5: the unconsumed entry `(a, c)` does appear in
`links-without-topology`. -/
theorem c5_amended_links_without_topology_witness :
    ((["a"], ["c"]) : QName × QName) ∈ linksWithoutTopology c5WitnessTable c5Nodes :=
  c5_amended_links_without_topology c5WitnessTable c5Nodes (["a"], ["c"])
    (by decide) (by decide) (by decide) (by decide)

/-- Transposition commutes with the executable matrix inverse. -/
theorem matInv_transpose {n : Nat} (m : Matrix (Fin n) (Fin n) ℚ) :
    (matInv m).transpose = matInv m.transpose := by
  unfold matInv
  rw [Matrix.transpose_smul, ← Matrix.adjugate_transpose, Matrix.det_transpose]

/-- The Katz matrix of a symmetric adjacency matrix is symmetric. -/
theorem katzMatrix_symm {n : Nat} (a : Matrix (Fin n) (Fin n) ℚ)
    (ha : a.transpose = a) :
    (katzMatrix a).transpose = katzMatrix a := by
  unfold katzMatrix
  rw [ha, Matrix.transpose_sub, Matrix.transpose_one, matInv_transpose,
    Matrix.transpose_sub, Matrix.transpose_one, Matrix.transpose_smul, ha]

/-- The adjacency matrix produced by the Builder is symmetric (the
`networkx` graph is undirected). -/
theorem builderAdj_symm (d : ClassDiagram) : (builderAdj d).transpose = builderAdj d := by
  ext i j
  show (if adjacentB d ((nodeList d).get j) ((nodeList d).get i) then (1 : ℚ) else 0)
      = (if adjacentB d ((nodeList d).get i) ((nodeList d).get j) then 1 else 0)
  have hc : adjacentB d ((nodeList d).get j) ((nodeList d).get i)
      = adjacentB d ((nodeList d).get i) ((nodeList d).get j) := Bool.or_comm _ _
  rw [hc]

/-- C9: on every package-level graph built by the Builder, the Katz matrix is
exactly symmetric, so the query-time sanity check
`|katz(x,y) − katz(y,x)| ≤ 1e-4` holds for all vertex pairs. -/
theorem c9_katz_symmetry (d : ClassDiagram) (i j : Fin (nodeCount d)) :
    |builderKatz d i j - builderKatz d j i| ≤ 1 / 10000 := by
  have hsym := katzMatrix_symm (builderAdj d) (builderAdj_symm d)
  have h2 : builderKatz d j i = builderKatz d i j := congrFun (congrFun hsym i) j
  rw [h2, sub_self, abs_zero]
  norm_num

/-- C2 amended: the cached Katz matrix satisfies
`(I − β·Aᵗ) · (K + I) = I`, i.e. `K = (I − β·Aᵗ)⁻¹ − I` (note the minus
sign), whenever `I − β·Aᵗ` is invertible. -/
theorem c2_amended_katz_formula {n : Nat} (a : Matrix (Fin n) (Fin n) ℚ)
    (h : (1 - beta • a.transpose).det ≠ 0) :
    (1 - beta • a.transpose) * (katzMatrix a + 1) = 1 := by
  unfold katzMatrix
  rw [sub_add_cancel]
  unfold matInv
  rw [Matrix.mul_smul, Matrix.mul_adjugate, smul_smul, inv_mul_cancel₀ h, one_smul]

/-- Witness for the amended C2 at the one-vertex edgeless graph. -/
theorem c2_amended_katz_formula_witness :
    ((1 : Matrix (Fin 1) (Fin 1) ℚ)
        - beta • (0 : Matrix (Fin 1) (Fin 1) ℚ).transpose).det ≠ 0 ∧
      ((1 : Matrix (Fin 1) (Fin 1) ℚ)
          - beta • (0 : Matrix (Fin 1) (Fin 1) ℚ).transpose)
        * (katzMatrix (0 : Matrix (Fin 1) (Fin 1) ℚ) + 1) = 1 :=
  ⟨by simp, c2_amended_katz_formula 0 (by simp)⟩

/-- A class diagram lifting to the two-vertex package graph `a — b`. -/
def c2Diagram : ClassDiagram :=
  [((["a", "X"], "class"), [(["b", "Y"], "uses")])]

/-- C2 counterexample: the package-level graph built from `c2Diagram` has
adjacency matrix `!![0,1;1,0]`, and on it the cached Katz matrix (computed
from `I − β·Aᵗ`) differs from the specification's formula `(I + β·Aᵗ)⁻¹ − I`:
the entry `(0,1)` is `200/39999` for the code but `−200/39999` for the
spec's formula. -/
theorem c2_counterexample_sign :
    (builderAdj c2Diagram : Matrix (Fin 2) (Fin 2) ℚ) = !![0, 1; 1, 0] ∧
      katzMatrix (!![0, 1; 1, 0] : Matrix (Fin 2) (Fin 2) ℚ)
        ≠ specKatzMatrix (!![0, 1; 1, 0] : Matrix (Fin 2) (Fin 2) ℚ) := by
  have hT : (!![0, 1; 1, 0] : Matrix (Fin 2) (Fin 2) ℚ).transpose = !![0, 1; 1, 0] := by
    decide
  have hKatz : katzMatrix (!![0, 1; 1, 0] : Matrix (Fin 2) (Fin 2) ℚ) 0 1
      = 200 / 39999 := by
    rw [katzMatrix, hT]
    simp [matInv, beta, Matrix.det_fin_two, Matrix.adjugate_fin_two,
      Matrix.sub_apply, Matrix.smul_apply, Matrix.one_apply]
    norm_num
  have hSpec : specKatzMatrix (!![0, 1; 1, 0] : Matrix (Fin 2) (Fin 2) ℚ) 0 1
      = -(200 / 39999) := by
    rw [specKatzMatrix, hT]
    simp [matInv, beta, Matrix.det_fin_two, Matrix.adjugate_fin_two,
      Matrix.sub_apply, Matrix.smul_apply, Matrix.one_apply]
    norm_num
  refine ⟨by decide, ?_⟩
  intro hEq
  have h01 := congrFun (congrFun hEq 0) 1
  rw [hKatz, hSpec] at h01
  norm_num at h01

end Study2
